import Mathlib

/-!
Verification development for the gve.sh core: graph store, symmetrizer,
membership loader, disconnected-community detector, and the command driver
of `src/main.cxx`.  The graph engine itself (headers included by
`src/inc/main.hxx`: `Graph.hxx`, `symmetricize.hxx`, `properties.hxx`, ...)
is not part of the repository snapshot, so those components are modelled
from the specification; the driver logic is translated from `src/main.cxx`.
-/

/-- Directed edge of the graph store: source vertex id, target vertex id and
an edge weight (`E` in the source; weight values are never inspected by the
core beyond being copied, so they are carried as a `Nat`). -/
structure GEdge where
  src : Nat
  dst : Nat
  w : Nat
deriving DecidableEq, Repr

/-- Modelled from the spec: the mutable graph store `DiGraph<K, None, E>`.
It records the explicitly added vertex ids and the list of directed edges
(parallel edges and self-loops are legal at ingestion time). -/
structure DiGraph where
  vertexIds : List Nat
  edges : List GEdge
deriving DecidableEq, Repr

/-- One past the largest id in a list of vertex ids (0 for the empty list). -/
def spanList (l : List Nat) : Nat :=
  l.foldr (fun i a => max (i + 1) a) 0

/-- Modelled from the spec: `span()` returns one past the highest vertex id
ever referenced, by explicit `addVertex` or as an edge endpoint. -/
def DiGraph.span (g : DiGraph) : Nat :=
  max (spanList g.vertexIds)
    (max (spanList (g.edges.map GEdge.src)) (spanList (g.edges.map GEdge.dst)))

/-- Whether the store holds a directed edge from `u` to `v` (any weight). -/
def DiGraph.hasEdge (g : DiGraph) (u v : Nat) : Bool :=
  g.edges.any (fun e => e.src == u && e.dst == v)

/-- The reversed copy of an edge, keeping the weight of the forward edge. -/
def reverseEdge (e : GEdge) : GEdge :=
  ⟨e.dst, e.src, e.w⟩

/-- Modelled from the spec: the Symmetrizer `symmetrizeOmpU`.  For every
edge (u,v) with u ≠ v whose counterpart (v,u) is absent it inserts (v,u)
with the same weight as the forward edge; self-loops are left alone. -/
def symmetrizeOmpU (g : DiGraph) : DiGraph :=
  { g with
    edges := g.edges ++
      (g.edges.filter (fun e => e.src != e.dst && !(g.hasEdge e.dst e.src))).map
        reverseEdge }

/-- Number of self-loop edges the store holds at vertex `u`. -/
def DiGraph.selfLoopsAt (g : DiGraph) (u : Nat) : Nat :=
  g.edges.countP (fun e => e.src == u && e.dst == u)

/-- A mutation of the graph store: `addVertex` or `addEdge` of the source. -/
inductive GraphOp where
  | addVertex (i : Nat)
  | addEdge (u v wt : Nat)
deriving DecidableEq, Repr

/-- Modelled from the spec: apply one store mutation.  `addVertex` records a
vertex id; `addEdge` appends a directed edge (endpoints are referenced ids). -/
def applyOp (g : DiGraph) : GraphOp → DiGraph
  | .addVertex i => { g with vertexIds := g.vertexIds ++ [i] }
  | .addEdge u v wt => { g with edges := g.edges ++ [⟨u, v, wt⟩] }

/-- Apply a sequence of store mutations in order. -/
def applyOps (g : DiGraph) (ops : List GraphOp) : DiGraph :=
  ops.foldl applyOp g

/-- The vertex ids referenced by one mutation. -/
def opRefs : GraphOp → List Nat
  | .addVertex i => [i]
  | .addEdge u v _ => [u, v]

/-- All vertex ids referenced by a sequence of mutations. -/
def opsRefs (ops : List GraphOp) : List Nat :=
  (ops.map opRefs).flatten

/-- The empty graph store. -/
def emptyDiGraph : DiGraph :=
  ⟨[], []⟩

/-- Modelled from the spec: whether an edge traversal from `u` to `v` stays
inside the subgraph induced by label `L` of membership vector `m`: both
endpoints are vertices (ids below the vector length, which the detector
requires to be the span) carrying label `L`, and the edge is present. -/
def inducedEdge (g : DiGraph) (m : List Nat) (L : Nat) (u v : Nat) : Bool :=
  decide (u < m.length) && decide (v < m.length) &&
    (m.getD u 0 == L) && (m.getD v 0 == L) && g.hasEdge u v

/-- Modelled from the spec: one round of the connectivity flood of the
Disconnected-Community Detector.  Every unvisited vertex of label `L`
adjacent (within the induced subgraph) to a visited vertex is marked. -/
def floodStep (g : DiGraph) (m : List Nat) (L : Nat) (visited : List Nat) : List Nat :=
  visited ++
    (List.range m.length).filter
      (fun v => !(visited.contains v) && visited.any (fun u => inducedEdge g m L u v))

/-- Modelled from the spec: the connectivity flood from seed `s`, restricted
to label `L`; iterating the round `m.length` times reaches the fixed point. -/
def flood (g : DiGraph) (m : List Nat) (L : Nat) (s : Nat) : List Nat :=
  (floodStep g m L)^[m.length] [s]

/-- Reachability inside the subgraph induced by label `L`: the reflexive
transitive closure of single induced-edge traversals. -/
def Reach (g : DiGraph) (m : List Nat) (L : Nat) : Nat → Nat → Prop :=
  Relation.ReflTransGen (fun u v => inducedEdge g m L u v = true)

/-- Decision procedure for `Reach`, by membership in the flooded set. -/
def reachB (g : DiGraph) (m : List Nat) (L : Nat) (a b : Nat) : Bool :=
  (flood g m L a).contains b

/-- The member vertices of label `L`: the vertex ids that carry label `L`. -/
def membersOf (m : List Nat) (L : Nat) : List Nat :=
  (List.range m.length).filter (fun u => m.getD u 0 == L)

/-- The distinct labels occurring in the membership vector. -/
def labelsOf (m : List Nat) : List Nat :=
  m.dedup

/-- Modelled from the spec: the per-label verdict of the Detector.  A label
with at most one member is trivially connected; otherwise the label is
disconnected exactly when some member is missed by the flood started at an
arbitrary seed member (the first one). -/
def labelDisconnected (g : DiGraph) (m : List Nat) (L : Nat) : Bool :=
  let S := membersOf m L
  if S.length ≤ 1 then false
  else !(S.all (fun v => (flood g m L (S.headD 0)).contains v))

/-- Modelled from the spec: the community partition `communities(x, m)`, the
list of member sets of the distinct labels. -/
def communities (_g : DiGraph) (m : List Nat) : List (List Nat) :=
  (labelsOf m).map (fun L => membersOf m L)

/-- Modelled from the spec: `communitiesDisconnectedOmp(x, m)`, the
per-label disconnection flags. -/
def communitiesDisconnectedOmp (g : DiGraph) (m : List Nat) : List Bool :=
  (labelsOf m).map (labelDisconnected g m)

/-- Model of `countValue`: how many entries of the list equal `v`. -/
def countValue (l : List Bool) (v : Bool) : Nat :=
  l.countP (fun x => x == v)

/-- The error taxonomy of the spec, plus the two fail-fast driver errors. -/
inductive RunError where
  | unknownCommand
  | unknownFormat
  | formatError
  | indexError
deriving DecidableEq, Repr

/-- Modelled from the spec: the Disconnected-Community Detector.  Given the
(symmetrized) graph and the membership vector it returns the pair
(totalCommunities, disconnectedCount); a membership vector shorter than the
span fails with an `IndexError` before any traversal. -/
def countDisconnectedCommunities (g : DiGraph) (m : List Nat) :
    Except RunError (Nat × Nat) :=
  if m.length < g.span then Except.error RunError.indexError
  else Except.ok ((communities g m).length,
    countValue (communitiesDisconnectedOmp g m) true)

/-- Whether every stored edge has its reverse counterpart in the store,
i.e. the store is a symmetrized (undirected-closure) graph. -/
def DiGraph.isSymmetric (g : DiGraph) : Bool :=
  g.edges.all (fun e => g.hasEdge e.dst e.src)

/-- Number of connectivity components of a finite vertex list `S`, relative
to a reachability decision `r`: each component is counted at its unique
minimal member, so this counts the members `v` that are below every member
reachable from them. -/
def componentCountWith (S : List Nat) (r : Nat → Nat → Bool) : Nat :=
  S.countP (fun v => S.all (fun u => !(r v u) || decide (v ≤ u)))

/-- Number of labels (distinct labels of `m`) whose induced subgraph has
more than one connectivity component, relative to a per-label reachability
decision `r`. -/
def specDisconnectedCountWith (m : List Nat) (r : Nat → Nat → Nat → Bool) : Nat :=
  (labelsOf m).countP (fun L => decide (1 < componentCountWith (membersOf m L) (r L)))

/-- The induced subgraph of label `L` has two members that are not joined by
a path inside the induced subgraph (so it has more than one connectivity
component). -/
def HasMultipleComponents (g : DiGraph) (m : List Nat) (L : Nat) : Prop :=
  ∃ a ∈ membersOf m L, ∃ b ∈ membersOf m L, ¬ Reach g m L a b

/-- Modelled from the spec: the keyed mode of the Membership Loader
(`readVectorW<true>`).  Each entry is an (id, label) pair written into the
pre-allocated vector; an id outside [0, span) fails with a `FormatError`. -/
def readVectorKeyedW (a : List Nat) : List (Nat × Nat) → Except RunError (List Nat)
  | [] => Except.ok a
  | (i, lab) :: rest =>
    if i < a.length then readVectorKeyedW (a.set i lab) rest
    else Except.error RunError.formatError

/-- Modelled from the spec: the positional mode of the Membership Loader
(`readVectorW<false>`).  Labels fill the vector in vertex-id order from
offset `start`; exactly `span - start` entries are required, and a shortfall
fails with a `FormatError` rather than default-filling. -/
def readVectorPosW (start : Nat) (a : List Nat) (entries : List Nat) :
    Except RunError (List Nat) :=
  if entries.length < a.length - start then Except.error RunError.formatError
  else Except.ok (a.take start ++ entries.take (a.length - start))

/-- File system activity of the driver model: data read from or written to
a named file. -/
inductive FileEvent where
  | fileRead (name : String)
  | fileWrite (name : String)
deriving DecidableEq, Repr

/-- The input-format strings `readGraphW` accepts. -/
def knownInputFormat (fmt : String) : Bool :=
  fmt == "mtx" || fmt == "coo" || fmt == "edgelist" || fmt == "csv" || fmt == "tsv"

/-- The output-format strings `writeGraph` accepts. -/
def knownOutputFormat (fmt : String) : Bool :=
  fmt == "mtx" || fmt == "coo" || fmt == "edgelist" || fmt == "csv" || fmt == "tsv"

/-- Options of the count-disconnected-communities command. -/
structure OptionsCountDisconnectedCommunities where
  inputFile : String
  inputFormat : String
  symmetric : Bool
  weighted : Bool
  membershipFile : String
  membershipKeyed : Bool
  membershipStart : Nat

/-- Options of the make-undirected command. -/
structure OptionsMakeUndirected where
  inputFile : String
  inputFormat : String
  inputSymmetric : Bool
  inputWeighted : Bool
  outputFile : String
  outputFormat : String
  outputSymmetric : Bool
  outputWeighted : Bool

/-- Model of `readGraphW` of `src/main.cxx`: dispatch on the format string;
a known format hands the file's lines to the matching ingester (`ingest`,
abstract here since the parsers are outside the snapshot) and records that
the file was read; an unknown format fails before any data is read. -/
def readGraphW (ingest : String → Bool → Bool → List String → DiGraph)
    (fs : String → List String) (file fmt : String) (weighted symmetric : Bool) :
    List FileEvent × Except RunError DiGraph :=
  if knownInputFormat fmt then
    ([FileEvent.fileRead file], Except.ok (ingest fmt weighted symmetric (fs file)))
  else ([], Except.error RunError.unknownFormat)

/-- Model of `writeGraph` of `src/main.cxx`: a known format writes the file,
an unknown one fails without touching it. -/
def writeGraph (file fmt : String) (_weighted _symmetric : Bool) (_x : DiGraph) :
    List FileEvent × Except RunError Unit :=
  if knownOutputFormat fmt then ([FileEvent.fileWrite file], Except.ok ())
  else ([], Except.error RunError.unknownFormat)

/-- Model of `runCountDisconnectedCommunities` of `src/main.cxx`: read the
graph, symmetrize it unless declared symmetric, allocate the membership
vector with the span of the (symmetrized) graph, fill it with the Membership
Loader (`parseKeyed`/`parsePos` produce the entries of the membership file),
then run the Detector. -/
def runCountDisconnectedCommunities
    (ingest : String → Bool → Bool → List String → DiGraph)
    (parseKeyed : List String → List (Nat × Nat)) (parsePos : List String → List Nat)
    (fs : String → List String) (o : OptionsCountDisconnectedCommunities) :
    List FileEvent × Except RunError (Nat × Nat) :=
  match readGraphW ingest fs o.inputFile o.inputFormat o.weighted o.symmetric with
  | (ev, Except.error e) => (ev, Except.error e)
  | (ev, Except.ok x) =>
    let x1 := if o.symmetric then x else symmetrizeOmpU x
    let membership0 : List Nat := List.replicate x1.span 0
    let mread :=
      if o.membershipKeyed then
        readVectorKeyedW membership0 (parseKeyed (fs o.membershipFile))
      else readVectorPosW o.membershipStart membership0 (parsePos (fs o.membershipFile))
    match mread with
    | Except.error e => (ev ++ [FileEvent.fileRead o.membershipFile], Except.error e)
    | Except.ok mem =>
      (ev ++ [FileEvent.fileRead o.membershipFile], countDisconnectedCommunities x1 mem)

/-- Model of `runMakeUndirected` of `src/main.cxx`: read the graph,
symmetrize it unless declared symmetric, write it back out. -/
def runMakeUndirected (ingest : String → Bool → Bool → List String → DiGraph)
    (fs : String → List String) (o : OptionsMakeUndirected) :
    List FileEvent × Except RunError Unit :=
  match readGraphW ingest fs o.inputFile o.inputFormat o.inputWeighted o.inputSymmetric with
  | (ev, Except.error e) => (ev, Except.error e)
  | (ev, Except.ok x) =>
    let x1 := if o.inputSymmetric then x else symmetrizeOmpU x
    match writeGraph o.outputFile o.outputFormat o.outputWeighted o.outputSymmetric x1 with
    | (ev2, r) => (ev ++ ev2, r)

/-- Model of `main` of `src/main.cxx`: dispatch on the command string; an
unknown command fails with a non-zero status before anything else runs. -/
def mainRun (ingest : String → Bool → Bool → List String → DiGraph)
    (parseKeyed : List String → List (Nat × Nat)) (parsePos : List String → List Nat)
    (fs : String → List String) (cmd : String)
    (oC : OptionsCountDisconnectedCommunities) (oM : OptionsMakeUndirected) :
    List FileEvent × Except RunError Unit :=
  if cmd == "count-disconnected-communities" then
    match runCountDisconnectedCommunities ingest parseKeyed parsePos fs oC with
    | (ev, Except.error e) => (ev, Except.error e)
    | (ev, Except.ok _) => (ev, Except.ok ())
  else if cmd == "make-undirected" then runMakeUndirected ingest fs oM
  else ([], Except.error RunError.unknownCommand)

/-- Whether a driver result is the Detector's `IndexError`. -/
def isIndexError {α : Type} : Except RunError α → Bool
  | Except.error RunError.indexError => true
  | _ => false

theorem hasEdge_iff (g : DiGraph) (u v : Nat) :
    g.hasEdge u v = true ↔ ∃ e ∈ g.edges, e.src = u ∧ e.dst = v := by
  simp [DiGraph.hasEdge]

theorem symmetrizeOmpU_def (g : DiGraph) :
    symmetrizeOmpU g =
      { g with
        edges := g.edges ++
          (g.edges.filter (fun e => e.src != e.dst && !(g.hasEdge e.dst e.src))).map
            reverseEdge } :=
  rfl

theorem symmetrize_closure (g : DiGraph) :
    ∀ e ∈ (symmetrizeOmpU g).edges, e.src ≠ e.dst →
      (symmetrizeOmpU g).hasEdge e.dst e.src = true := by
  intro e he hne
  rcases List.mem_append.1 he with h | h
  · by_cases hrev : g.hasEdge e.dst e.src = true
    · rcases (hasEdge_iff g e.dst e.src).1 hrev with ⟨f, hf, hs, hd⟩
      exact (hasEdge_iff _ _ _).2 ⟨f, List.mem_append_left _ hf, hs, hd⟩
    · have hfilt :
          e ∈ g.edges.filter (fun e => e.src != e.dst && !(g.hasEdge e.dst e.src)) := by
        rw [List.mem_filter]
        refine ⟨h, ?_⟩
        simp [bne_iff_ne, hne, Bool.eq_false_iff.2 hrev]
      refine (hasEdge_iff _ _ _).2 ⟨reverseEdge e, ?_, rfl, rfl⟩
      exact List.mem_append_right _ (List.mem_map_of_mem _ hfilt)
  · rcases List.mem_map.1 h with ⟨f, hf, rfl⟩
    exact (hasEdge_iff _ _ _).2 ⟨f, List.mem_append_left _ (List.mem_filter.1 hf).1, rfl, rfl⟩

/-- C2: after the Symmetrizer runs, every edge (u,v) with u ≠ v has the
reverse edge (v,u) present, and the number of self-loop edges at every
vertex is unchanged (self-loops are not duplicated). -/
theorem symmetrizeOmpU_closure_selfLoops (g : DiGraph) :
    (∀ e ∈ (symmetrizeOmpU g).edges, e.src ≠ e.dst →
      (symmetrizeOmpU g).hasEdge e.dst e.src = true) ∧
    ∀ u, (symmetrizeOmpU g).selfLoopsAt u = g.selfLoopsAt u := by
  refine ⟨symmetrize_closure g, fun u => ?_⟩
  have h0 :
      ((g.edges.filter (fun e => e.src != e.dst && !(g.hasEdge e.dst e.src))).map
        reverseEdge).countP (fun e => e.src == u && e.dst == u) = 0 := by
    rw [List.countP_eq_zero]
    intro e he
    rcases List.mem_map.1 he with ⟨f, hf, rfl⟩
    have hne : f.src ≠ f.dst := by
      have := (List.mem_filter.1 hf).2
      simp only [Bool.and_eq_true, bne_iff_ne, ne_eq] at this
      exact this.1
    simp only [reverseEdge, Bool.and_eq_true, beq_iff_eq]
    rintro ⟨h1, h2⟩
    exact hne (h2.trans h1.symm)
  simp [DiGraph.selfLoopsAt, symmetrizeOmpU_def, List.countP_append, h0]

/-- C3: the Symmetrizer is idempotent, the second application returns the
store unchanged. -/
theorem symmetrizeOmpU_idempotent (g : DiGraph) :
    symmetrizeOmpU (symmetrizeOmpU g) = symmetrizeOmpU g := by
  have hnil :
      (symmetrizeOmpU g).edges.filter
        (fun e => e.src != e.dst && !((symmetrizeOmpU g).hasEdge e.dst e.src)) = [] := by
    rw [List.filter_eq_nil_iff]
    intro e he
    by_cases hd : e.src = e.dst
    · simp [hd]
    · simp [hd, symmetrize_closure g e he hd]
  rw [symmetrizeOmpU_def (symmetrizeOmpU g), hnil]
  simp

theorem spanList_cons (x : Nat) (l : List Nat) :
    spanList (x :: l) = max (x + 1) (spanList l) :=
  rfl

theorem spanList_append (l₁ l₂ : List Nat) :
    spanList (l₁ ++ l₂) = max (spanList l₁) (spanList l₂) := by
  induction l₁ with
  | nil => simp [spanList]
  | cons x t ih => simp only [List.cons_append, spanList_cons, ih]; omega

theorem span_applyOp (g : DiGraph) (op : GraphOp) :
    (applyOp g op).span = max g.span (spanList (opRefs op)) := by
  cases op with
  | addVertex i =>
    simp only [applyOp, DiGraph.span, opRefs, spanList_append]
    simp [spanList]
    omega
  | addEdge u v wt =>
    simp only [applyOp, DiGraph.span, opRefs, List.map_append, spanList_append]
    simp [spanList]
    omega

theorem span_applyOps (g : DiGraph) (ops : List GraphOp) :
    (applyOps g ops).span = max g.span (spanList (opsRefs ops)) := by
  induction ops generalizing g with
  | nil => simp [applyOps, opsRefs, spanList]
  | cons op t ih =>
    have h1 : applyOps g (op :: t) = applyOps (applyOp g op) t := rfl
    have h2 : opsRefs (op :: t) = opRefs op ++ opsRefs t := by
      simp [opsRefs]
    rw [h1, ih, span_applyOp, h2, spanList_append]
    omega

theorem spanList_eq_foldr_max (l : List Nat) (h : l ≠ []) :
    spanList l = l.foldr max 0 + 1 := by
  induction l with
  | nil => exact absurd rfl h
  | cons x t ih =>
    cases t with
    | nil => simp [spanList]
    | cons y s =>
      rw [spanList_cons, ih (by simp)]
      simp only [List.foldr_cons]
      omega

/-- C4: starting from the empty store, after any sequence of addVertex and
addEdge calls the span is one plus the largest vertex id referenced by the
calls, and the span never decreases under further calls. -/
theorem span_refs_and_monotone :
    (∀ ops : List GraphOp, opsRefs ops ≠ [] →
      (applyOps emptyDiGraph ops).span = (opsRefs ops).foldr max 0 + 1) ∧
    ∀ (g : DiGraph) (ops : List GraphOp), g.span ≤ (applyOps g ops).span := by
  constructor
  · intro ops h
    rw [span_applyOps, ← spanList_eq_foldr_max _ h]
    simp [emptyDiGraph, DiGraph.span, spanList]
  · intro g ops
    rw [span_applyOps]
    exact le_max_left _ _

/-- Witness for C4 at the single call addEdge 0 3 (weight 1). -/
theorem span_refs_and_monotone_witness :
    opsRefs [GraphOp.addEdge 0 3 1] ≠ [] ∧
    (applyOps emptyDiGraph [GraphOp.addEdge 0 3 1]).span =
      (opsRefs [GraphOp.addEdge 0 3 1]).foldr max 0 + 1 :=
  ⟨by decide, span_refs_and_monotone.1 [GraphOp.addEdge 0 3 1] (by decide)⟩

/-- C6: a membership vector shorter than the span makes the Detector fail
with an IndexError; no counts are produced. -/
theorem detector_short_membership_indexError (g : DiGraph) (m : List Nat)
    (h : m.length < g.span) :
    countDisconnectedCommunities g m = Except.error RunError.indexError := by
  simp [countDisconnectedCommunities, h]

/-- Witness for C6: a two-vertex graph with an empty membership vector. -/
theorem detector_short_membership_indexError_witness :
    ([] : List Nat).length < (DiGraph.mk [] [⟨0, 1, 1⟩]).span ∧
    countDisconnectedCommunities (DiGraph.mk [] [⟨0, 1, 1⟩]) [] =
      Except.error RunError.indexError :=
  ⟨by decide, detector_short_membership_indexError _ _ (by decide)⟩

/-- Witness for C2 on a two-edge graph with one self-loop. -/
theorem symmetrizeOmpU_closure_selfLoops_witness :
    GEdge.mk 0 1 5 ∈ (symmetrizeOmpU (DiGraph.mk [] [⟨0, 1, 5⟩, ⟨2, 2, 7⟩])).edges ∧
    (GEdge.mk 0 1 5).src ≠ (GEdge.mk 0 1 5).dst ∧
    (symmetrizeOmpU (DiGraph.mk [] [⟨0, 1, 5⟩, ⟨2, 2, 7⟩])).hasEdge 1 0 = true ∧
    (symmetrizeOmpU (DiGraph.mk [] [⟨0, 1, 5⟩, ⟨2, 2, 7⟩])).selfLoopsAt 2 =
      (DiGraph.mk [] [⟨0, 1, 5⟩, ⟨2, 2, 7⟩]).selfLoopsAt 2 :=
  ⟨by decide, by decide,
    (symmetrizeOmpU_closure_selfLoops _).1 ⟨0, 1, 5⟩ (by decide) (by decide),
    (symmetrizeOmpU_closure_selfLoops _).2 2⟩

theorem mem_floodStep_left (g : DiGraph) (m : List Nat) (L : Nat) (vis : List Nat)
    (x : Nat) (h : x ∈ vis) : x ∈ floodStep g m L vis := by
  simp only [floodStep]
  exact List.mem_append_left _ h

theorem mem_floodStep (g : DiGraph) (m : List Nat) (L : Nat) (vis : List Nat) (v : Nat)
    (h : v ∈ floodStep g m L vis) :
    v ∈ vis ∨ ∃ u ∈ vis, inducedEdge g m L u v = true := by
  simp only [floodStep] at h
  rcases List.mem_append.1 h with h | h
  · exact Or.inl h
  · have h2 := (List.mem_filter.1 h).2
    simp only [Bool.and_eq_true, List.any_eq_true] at h2
    exact Or.inr h2.2

theorem mem_iterate_floodStep (g : DiGraph) (m : List Nat) (L : Nat) (vis : List Nat)
    (x : Nat) (k : Nat) (h : x ∈ vis) : x ∈ (floodStep g m L)^[k] vis := by
  induction k with
  | zero => simpa using h
  | succ n ih =>
    rw [Function.iterate_succ_apply']
    exact mem_floodStep_left _ _ _ _ _ ih

theorem iterate_floodStep_sound (g : DiGraph) (m : List Nat) (L : Nat) (a : Nat) :
    ∀ k b, b ∈ (floodStep g m L)^[k] [a] → Reach g m L a b := by
  intro k
  induction k with
  | zero =>
    intro b hb
    simp only [Function.iterate_zero_apply, List.mem_singleton] at hb
    subst hb
    exact Relation.ReflTransGen.refl
  | succ n ih =>
    intro b hb
    rw [Function.iterate_succ_apply'] at hb
    rcases mem_floodStep _ _ _ _ _ hb with h | ⟨u, hu, hi⟩
    · exact ih b h
    · exact Relation.ReflTransGen.tail (ih u hu) hi

theorem floodStep_nodup (g : DiGraph) (m : List Nat) (L : Nat) (vis : List Nat)
    (h : vis.Nodup) : (floodStep g m L vis).Nodup := by
  simp only [floodStep]
  rw [List.nodup_append]
  refine ⟨h, (List.nodup_range _).filter _, ?_⟩
  intro v hv hvf
  have h2 := (List.mem_filter.1 hvf).2
  simp only [Bool.and_eq_true] at h2
  have h3 : (!vis.contains v) = true := h2.1
  rw [Bool.not_eq_true', ← Bool.not_eq_true] at h3
  exact h3 (List.elem_iff.2 hv)

theorem iterate_floodStep_nodup (g : DiGraph) (m : List Nat) (L : Nat) (a k : Nat) :
    ((floodStep g m L)^[k] [a]).Nodup := by
  induction k with
  | zero => simp
  | succ n ih =>
    rw [Function.iterate_succ_apply']
    exact floodStep_nodup _ _ _ _ ih

theorem iterate_floodStep_subset (g : DiGraph) (m : List Nat) (L : Nat) (a k : Nat) :
    (floodStep g m L)^[k] [a] ⊆ a :: List.range m.length := by
  induction k with
  | zero =>
    intro x hx
    simp only [Function.iterate_zero_apply, List.mem_singleton] at hx
    subst hx
    exact List.mem_cons_self _ _
  | succ n ih =>
    rw [Function.iterate_succ_apply']
    intro x hx
    simp only [floodStep] at hx
    rcases List.mem_append.1 hx with h | h
    · exact ih h
    · exact List.mem_cons_of_mem _ ((List.mem_filter.1 h).1)

theorem iterate_floodStep_length_le (g : DiGraph) (m : List Nat) (L : Nat) (a k : Nat) :
    ((floodStep g m L)^[k] [a]).length ≤ m.length + 1 := by
  have h := (iterate_floodStep_nodup g m L a k).subperm (iterate_floodStep_subset g m L a k)
  simpa using h.length_le

theorem append_ne_self_length {α : Type} (l t : List α) (h : l ++ t ≠ l) :
    l.length + 1 ≤ (l ++ t).length := by
  cases t with
  | nil => simp at h
  | cons x s => simp [List.length_append]

theorem floodStep_ne_length (g : DiGraph) (m : List Nat) (L : Nat) (vis : List Nat)
    (h : floodStep g m L vis ≠ vis) : vis.length + 1 ≤ (floodStep g m L vis).length := by
  simp only [floodStep] at h ⊢
  exact append_ne_self_length _ _ h

theorem floodStep_fix_or_grow (g : DiGraph) (m : List Nat) (L : Nat) (a : Nat) :
    ∀ k, floodStep g m L ((floodStep g m L)^[k] [a]) = (floodStep g m L)^[k] [a] ∨
      k + 2 ≤ ((floodStep g m L)^[k + 1] [a]).length := by
  intro k
  induction k with
  | zero =>
    by_cases h : floodStep g m L ((floodStep g m L)^[0] [a]) = (floodStep g m L)^[0] [a]
    · exact Or.inl h
    · right
      have h2 := floodStep_ne_length g m L _ h
      rw [Function.iterate_succ_apply']
      simp only [Function.iterate_zero_apply] at h2 ⊢
      simpa using h2
  | succ n ih =>
    rcases ih with h | h
    · left
      have e : (floodStep g m L)^[n + 1] [a] = (floodStep g m L)^[n] [a] := by
        rw [Function.iterate_succ_apply', h]
      rw [e, h]
    · by_cases hf : floodStep g m L ((floodStep g m L)^[n + 1] [a]) =
        (floodStep g m L)^[n + 1] [a]
      · exact Or.inl hf
      · right
        have h2 := floodStep_ne_length g m L _ hf
        rw [Function.iterate_succ_apply' (n := n + 1)]
        omega

theorem flood_fixed (g : DiGraph) (m : List Nat) (L : Nat) (a : Nat) :
    floodStep g m L (flood g m L a) = flood g m L a := by
  rcases floodStep_fix_or_grow g m L a m.length with h | h
  · exact h
  · exfalso
    have hb := iterate_floodStep_length_le g m L a (m.length + 1)
    omega

theorem flood_closed (g : DiGraph) (m : List Nat) (L : Nat) (a : Nat) :
    ∀ u ∈ flood g m L a, ∀ v, inducedEdge g m L u v = true → v ∈ flood g m L a := by
  intro u hu v hi
  by_contra hv
  have hvlt : v < m.length := by
    simp only [inducedEdge, Bool.and_eq_true, decide_eq_true_eq] at hi
    exact hi.1.1.1.2
  have hmem : v ∈ floodStep g m L (flood g m L a) := by
    simp only [floodStep]
    apply List.mem_append_right
    rw [List.mem_filter]
    refine ⟨List.mem_range.2 hvlt, ?_⟩
    simp only [Bool.and_eq_true, List.any_eq_true]
    refine ⟨?_, ⟨u, hu, hi⟩⟩
    simp only [Bool.not_eq_true']
    rw [← Bool.not_eq_true]
    exact fun hc => hv (List.elem_iff.1 hc)
  rw [flood_fixed] at hmem
  exact hv hmem

theorem reach_mem_flood (g : DiGraph) (m : List Nat) (L : Nat) (a b : Nat)
    (h : Reach g m L a b) : b ∈ flood g m L a := by
  induction h with
  | refl => exact mem_iterate_floodStep g m L [a] a m.length (List.mem_singleton_self a)
  | tail h1 h2 ih => exact flood_closed g m L a _ ih _ h2

theorem reachB_iff (g : DiGraph) (m : List Nat) (L : Nat) (a b : Nat) :
    reachB g m L a b = true ↔ Reach g m L a b := by
  constructor
  · intro h
    exact iterate_floodStep_sound g m L a m.length b (List.elem_iff.1 h)
  · intro h
    exact List.elem_iff.2 (reach_mem_flood g m L a b h)

theorem hasEdge_symm (g : DiGraph) (h : g.isSymmetric = true) (u v : Nat)
    (he : g.hasEdge u v = true) : g.hasEdge v u = true := by
  rcases (hasEdge_iff g u v).1 he with ⟨e, hem, hs, hd⟩
  have h2 := List.all_eq_true.1 h e hem
  rw [hd, hs] at h2
  exact h2

theorem inducedEdge_symm (g : DiGraph) (m : List Nat) (L : Nat)
    (h : g.isSymmetric = true) (u v : Nat) (hi : inducedEdge g m L u v = true) :
    inducedEdge g m L v u = true := by
  simp only [inducedEdge, Bool.and_eq_true] at hi ⊢
  exact ⟨⟨⟨⟨hi.1.1.1.2, hi.1.1.1.1⟩, hi.1.2⟩, hi.1.1.2⟩, hasEdge_symm g h u v hi.2⟩

theorem reach_symm (g : DiGraph) (m : List Nat) (L : Nat) (h : g.isSymmetric = true)
    {a b : Nat} (hr : Reach g m L a b) : Reach g m L b a :=
  Relation.ReflTransGen.symmetric (fun x y hxy => inducedEdge_symm g m L h x y hxy) hr

theorem mem_membersOf (m : List Nat) (L u : Nat) :
    u ∈ membersOf m L ↔ u < m.length ∧ m.getD u 0 = L := by
  simp [membersOf, List.mem_filter, List.mem_range]

theorem membersOf_nodup (m : List Nat) (L : Nat) : (membersOf m L).Nodup :=
  (List.nodup_range _).filter _

theorem headD_mem {l : List Nat} (h : l ≠ []) (d : Nat) : l.headD d ∈ l := by
  cases l with
  | nil => exact absurd rfl h
  | cons x t => simp

theorem eq_of_mem_length_le_one {α : Type} {l : List α} (h : l.length ≤ 1) {a b : α}
    (ha : a ∈ l) (hb : b ∈ l) : a = b := by
  cases l with
  | nil => simp at ha
  | cons x t =>
    cases t with
    | nil =>
      simp only [List.mem_singleton] at ha hb
      rw [ha, hb]
    | cons y s => simp at h

theorem labelDisconnected_iff_multi (g : DiGraph) (m : List Nat) (L : Nat)
    (hsym : g.isSymmetric = true) :
    labelDisconnected g m L = true ↔ HasMultipleComponents g m L := by
  simp only [labelDisconnected]
  by_cases hlen : (membersOf m L).length ≤ 1
  · rw [if_pos hlen]
    constructor
    · intro h
      exact absurd h (by simp)
    · rintro ⟨a, ha, b, hb, hnr⟩
      have hab : a = b := eq_of_mem_length_le_one hlen ha hb
      exact absurd (hab ▸ Relation.ReflTransGen.refl) hnr
  · rw [if_neg hlen]
    have hS : membersOf m L ≠ [] := by
      intro hnil
      rw [hnil] at hlen
      simp at hlen
    have hsmem : (membersOf m L).headD 0 ∈ membersOf m L := headD_mem hS 0
    constructor
    · intro h
      have h2 : ¬ ∀ v ∈ membersOf m L,
          (flood g m L ((membersOf m L).headD 0)).contains v = true := by
        intro hall
        rw [List.all_eq_true.2 hall] at h
        simp at h
      push_neg at h2
      rcases h2 with ⟨v, hv, hnc⟩
      refine ⟨(membersOf m L).headD 0, hsmem, v, hv, fun hr => ?_⟩
      exact hnc ((reachB_iff g m L _ v).2 hr)
    · rintro ⟨a, ha, b, hb, hnr⟩
      by_contra hcon
      have hall : ∀ v ∈ membersOf m L, v ∈ flood g m L ((membersOf m L).headD 0) := by
        intro v hv
        have h3 : (membersOf m L).all
            (fun v => (flood g m L ((membersOf m L).headD 0)).contains v) = true := by
          rcases Bool.eq_false_or_eq_true ((membersOf m L).all
            (fun v => (flood g m L ((membersOf m L).headD 0)).contains v)) with hc | hc
          · exact hc
          · rw [hc] at hcon
            simp at hcon
        exact List.elem_iff.1 (List.all_eq_true.1 h3 v hv)
      have hsa : Reach g m L ((membersOf m L).headD 0) a :=
        iterate_floodStep_sound g m L _ m.length a (hall a ha)
      have hsb : Reach g m L ((membersOf m L).headD 0) b :=
        iterate_floodStep_sound g m L _ m.length b (hall b hb)
      exact hnr ((reach_symm g m L hsym hsa).trans hsb)

theorem exists_min_mem {l : List Nat} (h : l ≠ []) : ∃ x ∈ l, ∀ y ∈ l, x ≤ y := by
  induction l with
  | nil => exact absurd rfl h
  | cons a t ih =>
    cases t with
    | nil => exact ⟨a, by simp, by simp⟩
    | cons b s =>
      rcases ih (by simp) with ⟨x, hx, hmin⟩
      by_cases hax : a ≤ x
      · refine ⟨a, by simp, fun y hy => ?_⟩
        rcases List.mem_cons.1 hy with rfl | hy2
        · exact le_refl _
        · exact le_trans hax (hmin y hy2)
      · refine ⟨x, List.mem_cons_of_mem _ hx, fun y hy => ?_⟩
        rcases List.mem_cons.1 hy with rfl | hy2
        · omega
        · exact hmin y hy2

theorem countP_two {p : Nat → Bool} {l : List Nat} {a b : Nat}
    (ha : a ∈ l) (hb : b ∈ l) (hab : a ≠ b) (hpa : p a = true) (hpb : p b = true) :
    1 < l.countP p := by
  have hperm : l.Perm (a :: l.erase a) := List.perm_cons_erase ha
  have hbmem : b ∈ l.erase a := (List.mem_erase_of_ne (Ne.symm hab)).2 hb
  have h1 : 0 < (l.erase a).countP p := List.countP_pos_iff.2 ⟨b, hbmem, hpb⟩
  have h2 : l.countP p = (a :: l.erase a).countP p := hperm.countP_eq p
  have h3 : (a :: l.erase a).countP p = (l.erase a).countP p + 1 := by
    rw [List.countP_cons, if_pos hpa]
  rw [h2, h3]
  omega

theorem two_of_one_lt_countP {p : Nat → Bool} {l : List Nat} (hnd : l.Nodup)
    (h : 1 < l.countP p) :
    ∃ a ∈ l, ∃ b ∈ l, a ≠ b ∧ p a = true ∧ p b = true := by
  induction l with
  | nil => simp at h
  | cons x t ih =>
    rw [List.countP_cons] at h
    by_cases hpx : p x = true
    · have h1 : 0 < t.countP p := by
        rw [if_pos hpx] at h
        omega
      rcases List.countP_pos_iff.1 h1 with ⟨b, hb, hpb⟩
      have hxb : x ≠ b := fun he => (List.nodup_cons.1 hnd).1 (he ▸ hb)
      exact ⟨x, by simp, b, List.mem_cons_of_mem _ hb, hxb, hpx, hpb⟩
    · have hpx0 : p x = false := by
        rcases Bool.eq_false_or_eq_true (p x) with hc | hc
        · exact absurd hc hpx
        · exact hc
      rw [if_neg (by simp [hpx0])] at h
      have h2 : 1 < t.countP p := by omega
      rcases ih (List.nodup_cons.1 hnd).2 h2 with ⟨a, ha, b, hb, hab, hpa, hpb⟩
      exact ⟨a, List.mem_cons_of_mem _ ha, b, List.mem_cons_of_mem _ hb, hab, hpa, hpb⟩

theorem minRep_iff {S : List Nat} {r : Nat → Nat → Bool} {R : Nat → Nat → Prop}
    (hr : ∀ a b, r a b = true ↔ R a b) (v : Nat) :
    (S.all (fun u => !(r v u) || decide (v ≤ u)) = true) ↔ ∀ u ∈ S, R v u → v ≤ u := by
  rw [List.all_eq_true]
  apply forall_congr'
  intro u
  apply imp_congr_right
  intro _
  simp only [Bool.or_eq_true, Bool.not_eq_true', decide_eq_true_eq]
  constructor
  · rintro (h1 | h1) h2
    · exact absurd ((hr v u).2 h2) (by simp [h1])
    · exact h1
  · intro h1
    by_cases hb : r v u = true
    · exact Or.inr (h1 ((hr v u).1 hb))
    · exact Or.inl (Bool.eq_false_iff.2 hb)

theorem class_min {S : List Nat} {r : Nat → Nat → Bool} {R : Nat → Nat → Prop}
    (hr : ∀ a b, r a b = true ↔ R a b) (hrefl : ∀ x, R x x) {a : Nat} (ha : a ∈ S) :
    ∃ x ∈ S, R a x ∧ ∀ y ∈ S, R a y → x ≤ y := by
  have haC : a ∈ S.filter (fun u => r a u) :=
    List.mem_filter.2 ⟨ha, (hr a a).2 (hrefl a)⟩
  have hne : S.filter (fun u => r a u) ≠ [] := by
    intro h0
    rw [h0] at haC
    exact (List.not_mem_nil a) haC
  rcases exists_min_mem hne with ⟨x, hx, hmin⟩
  have hx2 := List.mem_filter.1 hx
  exact ⟨x, hx2.1, (hr a x).1 hx2.2,
    fun y hy hRy => hmin y (List.mem_filter.2 ⟨hy, (hr a y).2 hRy⟩)⟩

theorem multi_iff_componentCount (g : DiGraph) (m : List Nat) (L : Nat)
    (hsym : g.isSymmetric = true) (r : Nat → Nat → Bool)
    (hr : ∀ a b, r a b = true ↔ Reach g m L a b) :
    HasMultipleComponents g m L ↔ 1 < componentCountWith (membersOf m L) r := by
  have hrefl : ∀ x, Reach g m L x x := fun x => Relation.ReflTransGen.refl
  constructor
  · rintro ⟨a, ha, b, hb, hnr⟩
    rcases class_min hr hrefl ha with ⟨ma, hmaS, hRama, hmaMin⟩
    rcases class_min hr hrefl hb with ⟨mb, hmbS, hRbmb, hmbMin⟩
    have hpa : (membersOf m L).all (fun u => !(r ma u) || decide (ma ≤ u)) = true := by
      rw [minRep_iff hr]
      intro u hu hRu
      exact hmaMin u hu (hRama.trans hRu)
    have hpb : (membersOf m L).all (fun u => !(r mb u) || decide (mb ≤ u)) = true := by
      rw [minRep_iff hr]
      intro u hu hRu
      exact hmbMin u hu (hRbmb.trans hRu)
    have hne : ma ≠ mb := by
      intro he
      exact hnr (hRama.trans ((he ▸ (reach_symm g m L hsym hRbmb)) : Reach g m L ma b))
    exact countP_two hmaS hmbS hne hpa hpb
  · intro h
    rcases two_of_one_lt_countP (membersOf_nodup m L) h with ⟨a, ha, b, hb, hab, hpa, hpb⟩
    refine ⟨a, ha, b, hb, fun hR => ?_⟩
    have h1 : a ≤ b := (minRep_iff hr a).1 hpa b hb hR
    have h2 : b ≤ a := (minRep_iff hr b).1 hpb a ha (reach_symm g m L hsym hR)
    exact hab (le_antisymm h1 h2)

theorem labelDisconnected_eq_decide (g : DiGraph) (m : List Nat) (L : Nat)
    (hsym : g.isSymmetric = true) (r : Nat → Nat → Bool)
    (hr : ∀ a b, r a b = true ↔ Reach g m L a b) :
    labelDisconnected g m L = decide (1 < componentCountWith (membersOf m L) r) := by
  have h1 := labelDisconnected_iff_multi g m L hsym
  have h2 := multi_iff_componentCount g m L hsym r hr
  by_cases h : labelDisconnected g m L = true
  · rw [h]
    symm
    rw [decide_eq_true_eq]
    exact h2.1 (h1.1 h)
  · rw [Bool.eq_false_iff.2 h]
    symm
    rw [decide_eq_false_iff_not]
    exact fun hc => h (h1.2 (h2.2 hc))

theorem countP_congr_mem {l : List Nat} {p q : Nat → Bool} (h : ∀ a ∈ l, p a = q a) :
    l.countP p = l.countP q := by
  induction l with
  | nil => rfl
  | cons x t ih =>
    rw [List.countP_cons, List.countP_cons, h x (by simp),
      ih (fun a ha => h a (List.mem_cons_of_mem _ ha))]

/-- C1: on a symmetrized graph with a membership vector of length equal to
the span, the Detector returns the pair (totalCommunities, disconnectedCount):
the number of distinct labels of the vector, and the number of labels whose
induced subgraph has more than one connectivity component (counted through
any decision `r` of induced-subgraph reachability `Reach`). -/
theorem detector_returns_counts (g : DiGraph) (m : List Nat)
    (hsym : g.isSymmetric = true) (hlen : m.length = g.span)
    (r : Nat → Nat → Nat → Bool)
    (hr : ∀ L a b, r L a b = true ↔ Reach g m L a b) :
    countDisconnectedCommunities g m =
      Except.ok ((labelsOf m).length, specDisconnectedCountWith m r) := by
  rw [countDisconnectedCommunities, if_neg (by omega : ¬ m.length < g.span)]
  have hfst : (communities g m).length = (labelsOf m).length := by
    simp [communities]
  have hsnd : countValue (communitiesDisconnectedOmp g m) true =
      specDisconnectedCountWith m r := by
    rw [countValue, communitiesDisconnectedOmp, List.countP_map,
      specDisconnectedCountWith]
    apply countP_congr_mem
    intro L _
    show (labelDisconnected g m L == true) = _
    rw [beq_true, labelDisconnected_eq_decide g m L hsym (r L) (hr L)]
  rw [hfst, hsnd]

/-- Witness for C1 on a symmetric two-vertex, one-community graph, with the
flood-based decision procedure for reachability. -/
theorem detector_returns_counts_witness :
    (DiGraph.mk [] [⟨0, 1, 1⟩, ⟨1, 0, 1⟩]).isSymmetric = true ∧
    ([7, 7] : List Nat).length = (DiGraph.mk [] [⟨0, 1, 1⟩, ⟨1, 0, 1⟩]).span ∧
    countDisconnectedCommunities (DiGraph.mk [] [⟨0, 1, 1⟩, ⟨1, 0, 1⟩]) [7, 7] =
      Except.ok ((labelsOf [7, 7]).length,
        specDisconnectedCountWith [7, 7]
          (reachB (DiGraph.mk [] [⟨0, 1, 1⟩, ⟨1, 0, 1⟩]) [7, 7])) :=
  ⟨by decide, by decide,
    detector_returns_counts _ _ (by decide) (by decide) _
      (fun L a b => reachB_iff (DiGraph.mk [] [⟨0, 1, 1⟩, ⟨1, 0, 1⟩]) [7, 7] L a b)⟩

/-- C8: a label with exactly one member vertex is always reported connected,
whatever edges its vertex has. -/
theorem singleton_label_connected (g : DiGraph) (m : List Nat) (L : Nat)
    (h : (membersOf m L).length = 1) : labelDisconnected g m L = false := by
  simp only [labelDisconnected]
  rw [if_pos (by omega)]

/-- Witness for C8: a one-member label on a vertex carrying a self-loop. -/
theorem singleton_label_connected_witness :
    (membersOf [3] 3).length = 1 ∧
    labelDisconnected (DiGraph.mk [] [⟨0, 0, 1⟩]) [3] 3 = false :=
  ⟨by decide, singleton_label_connected _ _ _ (by decide)⟩

theorem hasEdge_eq_of_mem_iff {g₁ g₂ : DiGraph}
    (he : ∀ e, e ∈ g₁.edges ↔ e ∈ g₂.edges) (u v : Nat) :
    g₁.hasEdge u v = g₂.hasEdge u v := by
  have hiff : g₁.hasEdge u v = true ↔ g₂.hasEdge u v = true := by
    rw [hasEdge_iff, hasEdge_iff]
    constructor
    · rintro ⟨e, hm, hs, hd⟩
      exact ⟨e, (he e).1 hm, hs, hd⟩
    · rintro ⟨e, hm, hs, hd⟩
      exact ⟨e, (he e).2 hm, hs, hd⟩
  rcases Bool.eq_false_or_eq_true (g₁.hasEdge u v) with h1 | h1 <;>
    rcases Bool.eq_false_or_eq_true (g₂.hasEdge u v) with h2 | h2 <;>
      simp_all

theorem le_spanList_of_mem {x : Nat} {l : List Nat} (h : x ∈ l) : x + 1 ≤ spanList l := by
  induction l with
  | nil => simp at h
  | cons y t ih =>
    rw [spanList_cons]
    rcases List.mem_cons.1 h with rfl | h2
    · omega
    · have := ih h2
      omega

theorem spanList_le_of_subset {l₁ l₂ : List Nat} (h : ∀ x ∈ l₁, x ∈ l₂) :
    spanList l₁ ≤ spanList l₂ := by
  induction l₁ with
  | nil => simp [spanList]
  | cons y t ih =>
    rw [spanList_cons]
    have h1 := le_spanList_of_mem (h y (by simp))
    have h2 := ih (fun x hx => h x (List.mem_cons_of_mem _ hx))
    omega

theorem span_eq_of_mem_iff {g₁ g₂ : DiGraph}
    (he : ∀ e, e ∈ g₁.edges ↔ e ∈ g₂.edges) (hv : g₁.vertexIds = g₂.vertexIds) :
    g₁.span = g₂.span := by
  have hm : ∀ (f : GEdge → Nat),
      spanList (g₁.edges.map f) = spanList (g₂.edges.map f) := by
    intro f
    apply le_antisymm
    · apply spanList_le_of_subset
      intro x hx
      rcases List.mem_map.1 hx with ⟨e, hmem, rfl⟩
      exact List.mem_map_of_mem f ((he e).1 hmem)
    · apply spanList_le_of_subset
      intro x hx
      rcases List.mem_map.1 hx with ⟨e, hmem, rfl⟩
      exact List.mem_map_of_mem f ((he e).2 hmem)
  rw [DiGraph.span, DiGraph.span, hv, hm GEdge.src, hm GEdge.dst]

/-- C5: the Detector's counts depend only on the edge set (and the vertex
ids), not on the order in which edges or neighbors are stored: two stores
with the same edge set and the same vertex ids give the same result on every
membership vector. -/
theorem detector_order_independent (g₁ g₂ : DiGraph) (m : List Nat)
    (he : ∀ e, e ∈ g₁.edges ↔ e ∈ g₂.edges) (hv : g₁.vertexIds = g₂.vertexIds) :
    countDisconnectedCommunities g₁ m = countDisconnectedCommunities g₂ m := by
  have hspan : g₁.span = g₂.span := span_eq_of_mem_iff he hv
  have hie : ∀ L, inducedEdge g₁ m L = inducedEdge g₂ m L := by
    intro L
    funext u v
    simp only [inducedEdge, hasEdge_eq_of_mem_iff he u v]
  have hfs : ∀ L, floodStep g₁ m L = floodStep g₂ m L := by
    intro L
    funext vis
    simp only [floodStep, hie L]
  have hfl : labelDisconnected g₁ m = labelDisconnected g₂ m := by
    funext L
    simp only [labelDisconnected, flood, hfs L]
  simp only [countDisconnectedCommunities, hspan, communities,
    communitiesDisconnectedOmp, hfl]

/-- Witness for C5: the same two edges listed in the two orders. -/
theorem detector_order_independent_witness :
    (∀ e, e ∈ (DiGraph.mk [] [⟨0, 1, 1⟩, ⟨1, 0, 2⟩]).edges ↔
      e ∈ (DiGraph.mk [] [⟨1, 0, 2⟩, ⟨0, 1, 1⟩]).edges) ∧
    countDisconnectedCommunities (DiGraph.mk [] [⟨0, 1, 1⟩, ⟨1, 0, 2⟩]) [4, 4] =
      countDisconnectedCommunities (DiGraph.mk [] [⟨1, 0, 2⟩, ⟨0, 1, 1⟩]) [4, 4] :=
  ⟨fun e => by simp only [List.mem_cons, List.not_mem_nil, or_false]; tauto,
    detector_order_independent _ _ [4, 4]
      (fun e => by simp only [List.mem_cons, List.not_mem_nil, or_false]; tauto) rfl⟩

theorem readVectorKeyedW_oob (a : List Nat) (entries : List (Nat × Nat))
    (h : ∃ p ∈ entries, ¬ p.1 < a.length) :
    readVectorKeyedW a entries = Except.error RunError.formatError := by
  induction entries generalizing a with
  | nil =>
    rcases h with ⟨p, hp, _⟩
    simp at hp
  | cons q rest ih =>
    obtain ⟨i, lab⟩ := q
    rcases h with ⟨p, hp, hlt⟩
    rcases List.mem_cons.1 hp with rfl | hmem
    · simp only [readVectorKeyedW]
      rw [if_neg hlt]
    · by_cases hi : i < a.length
      · simp only [readVectorKeyedW]
        rw [if_pos hi]
        refine ih (a.set i lab) ⟨p, hmem, ?_⟩
        rw [List.length_set]
        exact hlt
      · simp only [readVectorKeyedW]
        rw [if_neg hi]

theorem readVectorPosW_short (start : Nat) (a entries : List Nat)
    (h : entries.length < a.length - start) :
    readVectorPosW start a entries = Except.error RunError.formatError := by
  simp [readVectorPosW, h]

/-- C7: the Membership Loader fails with a FormatError on a keyed id outside
[0, span) (the vector is allocated with span entries), and in positional
mode on a file that ends before span - start entries were read; it never
default-fills a shortfall. -/
theorem readVectorW_failures :
    (∀ (a : List Nat) (entries : List (Nat × Nat)), (∃ p ∈ entries, ¬ p.1 < a.length) →
      readVectorKeyedW a entries = Except.error RunError.formatError) ∧
    ∀ (start : Nat) (a entries : List Nat), entries.length < a.length - start →
      readVectorPosW start a entries = Except.error RunError.formatError :=
  ⟨readVectorKeyedW_oob, readVectorPosW_short⟩

/-- Witness for C7: a keyed id 5 against span 2, and one positional entry
against span 3 with offset 0. -/
theorem readVectorW_failures_witness :
    (∃ p ∈ [((5 : Nat), (1 : Nat))], ¬ p.1 < ([0, 0] : List Nat).length) ∧
    readVectorKeyedW [0, 0] [(5, 1)] = Except.error RunError.formatError ∧
    ([9] : List Nat).length < ([0, 0, 0] : List Nat).length - 0 ∧
    readVectorPosW 0 [0, 0, 0] [9] = Except.error RunError.formatError :=
  ⟨⟨(5, 1), by decide, by decide⟩,
    readVectorW_failures.1 [0, 0] [(5, 1)] ⟨(5, 1), by decide, by decide⟩,
    by decide,
    readVectorW_failures.2 0 [0, 0, 0] [9] (by decide)⟩

theorem runCDC_unknownFormat (ingest : String → Bool → Bool → List String → DiGraph)
    (parseKeyed : List String → List (Nat × Nat)) (parsePos : List String → List Nat)
    (fs : String → List String) (oC : OptionsCountDisconnectedCommunities)
    (h : knownInputFormat oC.inputFormat = false) :
    runCountDisconnectedCommunities ingest parseKeyed parsePos fs oC =
      ([], Except.error RunError.unknownFormat) := by
  have hrg : readGraphW ingest fs oC.inputFile oC.inputFormat oC.weighted oC.symmetric =
      ([], Except.error RunError.unknownFormat) := by
    simp [readGraphW, h]
  simp [runCountDisconnectedCommunities, hrg]

theorem runMU_unknownFormat (ingest : String → Bool → Bool → List String → DiGraph)
    (fs : String → List String) (oM : OptionsMakeUndirected)
    (h : knownInputFormat oM.inputFormat = false) :
    runMakeUndirected ingest fs oM = ([], Except.error RunError.unknownFormat) := by
  have hrg : readGraphW ingest fs oM.inputFile oM.inputFormat oM.inputWeighted
      oM.inputSymmetric = ([], Except.error RunError.unknownFormat) := by
    simp [readGraphW, h]
  simp [runMakeUndirected, hrg]

/-- C9: an unknown command string fails the run with no file read or
written, and a known command with an unknown input-format string likewise
fails before any file data is read or written. -/
theorem unknown_command_or_format_failfast :
    (∀ ingest parseKeyed parsePos fs cmd oC oM,
      cmd ≠ "count-disconnected-communities" → cmd ≠ "make-undirected" →
      mainRun ingest parseKeyed parsePos fs cmd oC oM =
        ([], Except.error RunError.unknownCommand)) ∧
    (∀ ingest parseKeyed parsePos fs oC oM, knownInputFormat oC.inputFormat = false →
      mainRun ingest parseKeyed parsePos fs "count-disconnected-communities" oC oM =
        ([], Except.error RunError.unknownFormat)) ∧
    ∀ ingest parseKeyed parsePos fs oC oM, knownInputFormat oM.inputFormat = false →
      mainRun ingest parseKeyed parsePos fs "make-undirected" oC oM =
        ([], Except.error RunError.unknownFormat) := by
  refine ⟨?_, ?_, ?_⟩
  · intro ingest parseKeyed parsePos fs cmd oC oM h1 h2
    simp only [mainRun]
    rw [if_neg (by simpa using h1), if_neg (by simpa using h2)]
  · intro ingest parseKeyed parsePos fs oC oM h
    simp only [mainRun]
    rw [if_pos (beq_self_eq_true _), runCDC_unknownFormat ingest parseKeyed parsePos fs oC h]
  · intro ingest parseKeyed parsePos fs oC oM h
    simp only [mainRun]
    rw [if_neg (by decide), if_pos (beq_self_eq_true _),
      runMU_unknownFormat ingest fs oM h]

/-- Witness for C9: an unknown command, and the known command with an
unknown input format, against trivial collaborators. -/
theorem unknown_command_or_format_failfast_witness :
    ("bogus" : String) ≠ "count-disconnected-communities" ∧
    ("bogus" : String) ≠ "make-undirected" ∧
    mainRun (fun _ _ _ _ => emptyDiGraph) (fun _ => []) (fun _ => []) (fun _ => [])
        "bogus" ⟨"i", "mtx", false, false, "m", false, 0⟩
        ⟨"i", "mtx", false, false, "o", "mtx", false, false⟩ =
      ([], Except.error RunError.unknownCommand) ∧
    knownInputFormat "xml" = false ∧
    mainRun (fun _ _ _ _ => emptyDiGraph) (fun _ => []) (fun _ => []) (fun _ => [])
        "count-disconnected-communities" ⟨"i", "xml", false, false, "m", false, 0⟩
        ⟨"i", "mtx", false, false, "o", "mtx", false, false⟩ =
      ([], Except.error RunError.unknownFormat) :=
  ⟨by decide, by decide,
    unknown_command_or_format_failfast.1 _ _ _ _ "bogus" _ _ (by decide) (by decide),
    by decide,
    unknown_command_or_format_failfast.2.1 _ _ _ _
      ⟨"i", "xml", false, false, "m", false, 0⟩ _ (by decide)⟩

theorem readVectorKeyedW_ok_length (a : List Nat) (entries : List (Nat × Nat))
    (b : List Nat) (h : readVectorKeyedW a entries = Except.ok b) :
    b.length = a.length := by
  induction entries generalizing a with
  | nil =>
    simp only [readVectorKeyedW, Except.ok.injEq] at h
    rw [← h]
  | cons q rest ih =>
    obtain ⟨i, lab⟩ := q
    simp only [readVectorKeyedW] at h
    by_cases hi : i < a.length
    · rw [if_pos hi] at h
      have h2 := ih _ h
      rwa [List.length_set] at h2
    · rw [if_neg hi] at h
      exact absurd h (by simp)

theorem readVectorKeyedW_error (a : List Nat) (entries : List (Nat × Nat))
    (e : RunError) (h : readVectorKeyedW a entries = Except.error e) :
    e = RunError.formatError := by
  induction entries generalizing a with
  | nil => simp [readVectorKeyedW] at h
  | cons q rest ih =>
    obtain ⟨i, lab⟩ := q
    simp only [readVectorKeyedW] at h
    by_cases hi : i < a.length
    · rw [if_pos hi] at h
      exact ih _ h
    · rw [if_neg hi] at h
      simp only [Except.error.injEq] at h
      exact h.symm

theorem readVectorPosW_ok_length (start : Nat) (a entries b : List Nat)
    (h : readVectorPosW start a entries = Except.ok b) : b.length = a.length := by
  simp only [readVectorPosW] at h
  by_cases hc : entries.length < a.length - start
  · rw [if_pos hc] at h
    exact absurd h (by simp)
  · rw [if_neg hc] at h
    simp only [Except.ok.injEq] at h
    rw [← h]
    simp only [List.length_append, List.length_take]
    omega

theorem readVectorPosW_error (start : Nat) (a entries : List Nat) (e : RunError)
    (h : readVectorPosW start a entries = Except.error e) :
    e = RunError.formatError := by
  simp only [readVectorPosW] at h
  by_cases hc : entries.length < a.length - start
  · rw [if_pos hc] at h
    simp only [Except.error.injEq] at h
    exact h.symm
  · rw [if_neg hc] at h
    exact absurd h (by simp)

theorem detector_ok_of_full_length (g : DiGraph) (m : List Nat)
    (h : m.length = g.span) :
    isIndexError (countDisconnectedCommunities g m) = false := by
  rw [countDisconnectedCommunities, if_neg (by omega : ¬ m.length < g.span)]
  rfl

theorem mread_cases (keyed : Bool) (a : List Nat) (kentries : List (Nat × Nat))
    (pentries : List Nat) (start : Nat) :
    (∃ mem, (if keyed then readVectorKeyedW a kentries
        else readVectorPosW start a pentries) = Except.ok mem ∧ mem.length = a.length) ∨
    (if keyed then readVectorKeyedW a kentries
        else readVectorPosW start a pentries) = Except.error RunError.formatError := by
  cases keyed with
  | false =>
    cases hres : readVectorPosW start a pentries with
    | ok mem =>
      left
      exact ⟨mem, by simp [hres], readVectorPosW_ok_length _ _ _ _ hres⟩
    | error e =>
      right
      have he := readVectorPosW_error _ _ _ _ hres
      simp [hres, he]
  | true =>
    cases hres : readVectorKeyedW a kentries with
    | ok mem =>
      left
      exact ⟨mem, by simp [hres], readVectorKeyedW_ok_length _ _ _ hres⟩
    | error e =>
      right
      have he := readVectorKeyedW_error _ _ _ hres
      simp [hres, he]

/-- C10: in the count-disconnected-communities driver the membership vector
is allocated with the span of the (already symmetrized) graph and the
Membership Loader preserves its length, so the Detector's IndexError branch
is unreachable: the driver never produces an IndexError. -/
theorem driver_membership_never_indexError :
    ∀ (ingest : String → Bool → Bool → List String → DiGraph)
      (parseKeyed : List String → List (Nat × Nat)) (parsePos : List String → List Nat)
      (fs : String → List String) (oC : OptionsCountDisconnectedCommunities),
      isIndexError (runCountDisconnectedCommunities ingest parseKeyed parsePos fs oC).2 =
        false := by
  intro ingest parseKeyed parsePos fs oC
  by_cases hf : knownInputFormat oC.inputFormat = true
  · set x0 := ingest oC.inputFormat oC.weighted oC.symmetric (fs oC.inputFile) with hx0
    have hrg : readGraphW ingest fs oC.inputFile oC.inputFormat oC.weighted oC.symmetric =
        ([FileEvent.fileRead oC.inputFile], Except.ok x0) := by
      simp [readGraphW, hf, hx0]
    simp only [runCountDisconnectedCommunities, hrg]
    set x1 := if oC.symmetric then x0 else symmetrizeOmpU x0 with hx1
    rcases mread_cases oC.membershipKeyed (List.replicate x1.span 0)
        (parseKeyed (fs oC.membershipFile)) (parsePos (fs oC.membershipFile))
        oC.membershipStart with ⟨mem, hok, hlen⟩ | herr
    · simp only [hok]
      exact detector_ok_of_full_length x1 mem (by simpa using hlen)
    · simp only [herr]
      rfl
  · have hff : knownInputFormat oC.inputFormat = false := Bool.eq_false_iff.2 hf
    rw [runCDC_unknownFormat ingest parseKeyed parsePos fs oC hff]
    rfl
